import Mathlib

/-!
Formal model of the physical-position dashboard pipeline (`src/main.py`).

The program loads a CSV of position records, coerces thirteen named columns
from comma/space-laden numeric strings to floats (unparseable cells become 0),
replaces each distinct `Int BU` value with a sequential pseudonym `BU-1`,
`BU-2`, ... in first-seen order, parses `Flow Month` with format `%m/%Y`
(unparseable months become the NaT sentinel), filters rows by selected BUs and
an inclusive month range, and computes group-by sums, factor means and
insights.  Numbers are modelled by `ℚ`, tables by `List`, the NaT sentinel
and the missing-value marker NaN by `none`, and a failing positional access
(`iloc[0]` on an empty frame) by `none` as well.
-/

set_option autoImplicit false

namespace Dashboard

/-- The character for decimal digit `d`, as rendered by Python string
interpolation of an integer. -/
def digitChar (d : Nat) : Char := Char.ofNat (48 + d)

/-- Numeric value of a list of decimal digit characters (most significant
first). -/
def digitsToNat (l : List Char) : Nat :=
  l.foldl (fun a c => 10 * a + (c.toNat - 48)) 0

/-- Decimal digit expansion of `n`, most significant first, with explicit
fuel to keep the recursion structural.  Empty on `n = 0`. -/
def natDecimalAux : Nat → Nat → List Char
  | 0, _ => []
  | _ + 1, 0 => []
  | fuel + 1, n + 1 => natDecimalAux fuel ((n + 1) / 10) ++ [digitChar ((n + 1) % 10)]

/-- Decimal rendering of a natural number, as Python's f-string renders an
integer. -/
def natDecimal (n : Nat) : String :=
  String.mk (if n = 0 then ['0'] else natDecimalAux n n)

/-- The character-level effect of
`.astype(str).str.replace(',', '').str.replace(' ', '').str.strip()`
(line 24 of `main.py`): delete every comma and space, then trim remaining
surrounding whitespace. -/
def stripCell (s : String) : List Char :=
  ((((s.data.filter (fun c => decide (c ≠ ',') && decide (c ≠ ' '))).dropWhile
    Char.isWhitespace).reverse.dropWhile Char.isWhitespace).reverse)

/-- Parse an unsigned decimal numeral, optionally with a fractional part,
into an exact rational (the value `float` parsing would produce). -/
def parseUnsigned (l : List Char) : Option ℚ :=
  match l.dropWhile Char.isDigit with
  | [] =>
    if (l.takeWhile Char.isDigit).isEmpty then none
    else some ((digitsToNat (l.takeWhile Char.isDigit) : ℚ))
  | '.' :: fp =>
    if fp.all Char.isDigit && !((l.takeWhile Char.isDigit).isEmpty && fp.isEmpty) then
      some ((digitsToNat (l.takeWhile Char.isDigit) : ℚ) +
        (digitsToNat fp : ℚ) / (10 : ℚ) ^ fp.length)
    else none
  | _ => none

/-- Parse an optionally signed decimal numeral: the model of
`pd.to_numeric(..., errors='coerce')` on the already-stripped cell, with
`none` for the NaN a parse failure coerces to. -/
def parseNumeric (l : List Char) : Option ℚ :=
  match l with
  | [] => none
  | c :: rest =>
    if c = '-' then (parseUnsigned rest).map (fun q => -q)
    else if c = '+' then parseUnsigned rest
    else parseUnsigned (c :: rest)

/-- Normalization of one numeric cell (lines 24-25 of `main.py`): strip
commas, spaces and surrounding whitespace, parse as a number, and substitute
`0` when the parse fails (`fillna(0)`).  This is the cell model restricted
to the plain-decimal domain; the full model, which also covers scientific
notation and the non-finite infinity values, is `normalizeCellFull`. -/
def normalizeCell (s : String) : ℚ :=
  (parseNumeric (stripCell s)).getD 0

/-- The value of one cell after `pd.to_numeric`: a finite number or a
signed infinity.  The missing marker NaN — produced by a failed parse under
`errors="coerce"`, or by a cell reading `nan` — is `none` at the
`Option PdValue` level. -/
inductive PdValue where
  | num (q : ℚ)
  | posInf
  | negInf
deriving DecidableEq

/-- Negation of a parsed cell value, for a leading minus sign. -/
def PdValue.neg : PdValue → PdValue
  | PdValue.num q => PdValue.num (-q)
  | PdValue.posInf => PdValue.negInf
  | PdValue.negInf => PdValue.posInf

/-- Whether a parsed cell value is a finite number. -/
def PdValue.isFinite : PdValue → Bool
  | PdValue.num _ => true
  | PdValue.posInf => false
  | PdValue.negInf => false

/-- The rational `10 ^ n`, by structural recursion. -/
def pow10 : Nat → ℚ
  | 0 => 1
  | n + 1 => 10 * pow10 n

/-- Parse an exponent suffix (the part after `e`/`E`): an optional sign and
a nonempty digit run, returned as an is-negative flag with the magnitude. -/
def parseExpPart (l : List Char) : Option (Bool × Nat) :=
  match l with
  | '-' :: rest =>
    if !rest.isEmpty && rest.all Char.isDigit then some (true, digitsToNat rest) else none
  | '+' :: rest =>
    if !rest.isEmpty && rest.all Char.isDigit then some (false, digitsToNat rest) else none
  | _ =>
    if !l.isEmpty && l.all Char.isDigit then some (false, digitsToNat l) else none

/-- Parse an unsigned decimal numeral with an optional scientific-notation
exponent (`1e5`, `2.5E-3`), exactly over `ℚ`: a negative exponent divides
by the power of ten.  Rounding to binary floating point is not modelled;
values stay exact. -/
def parseDecimalFull (l : List Char) : Option ℚ :=
  match l.dropWhile (fun c => decide (c ≠ 'e') && decide (c ≠ 'E')) with
  | [] => parseUnsigned l
  | _ :: expPart =>
    match parseUnsigned (l.takeWhile (fun c => decide (c ≠ 'e') && decide (c ≠ 'E'))),
        parseExpPart expPart with
    | some m, some (true, e) => some (m / pow10 e)
    | some m, some (false, e) => some (m * pow10 e)
    | _, _ => none

/-- One unsigned cell body as the pandas numeric parser reads it: a
case-insensitive infinity literal (`inf` or `infinity`) is a non-finite
value, a case-insensitive `nan` is the missing marker, and anything else
must be a decimal numeral with optional fraction and exponent. -/
def parseBodyFull (l : List Char) : Option PdValue :=
  if l.map Char.toLower = "inf".data || l.map Char.toLower = "infinity".data then
    some PdValue.posInf
  else if l.map Char.toLower = "nan".data then
    none
  else
    (parseDecimalFull l).map PdValue.num

/-- The full model of `pd.to_numeric(..., errors="coerce")` on an
already-stripped cell (line 25), extending `parseNumeric` with scientific
notation and the infinity/NaN literals: an optional sign followed by a cell
body; any parse failure coerces to NaN (`none`). -/
def parseNumericFull (l : List Char) : Option PdValue :=
  match l with
  | [] => none
  | c :: rest =>
    if c = '-' then (parseBodyFull rest).map PdValue.neg
    else if c = '+' then parseBodyFull rest
    else parseBodyFull (c :: rest)

/-- Full-fidelity model of one numeric cell of lines 24-25: strip commas,
spaces and surrounding whitespace, parse with the pandas parser model, then
apply `fillna(0)` — which replaces only the missing marker NaN, so a parsed
infinity survives normalization as a non-finite value. -/
def normalizeCellFull (s : String) : PdValue :=
  (parseNumericFull (stripCell s)).getD (PdValue.num 0)

/-- Model of `pd.to_datetime(df["Flow Month"], format="%m/%Y",
errors="coerce")` (line 46): parse `month/year` into a linear month number
`year * 12 + (month - 1)`, where the month part is one or two digits with
value 1-12 and the year part exactly four digits — the strings the `%m/%Y`
strptime pattern matches; anything malformed becomes the sentinel `none`
(NaT). -/
def parseMonth (s : String) : Option Nat :=
  match s.data.dropWhile (fun c => decide (c ≠ '/')) with
  | '/' :: yPart =>
    if (s.data.takeWhile (fun c => decide (c ≠ '/'))).all Char.isDigit &&
        !(s.data.takeWhile (fun c => decide (c ≠ '/'))).isEmpty &&
        decide ((s.data.takeWhile (fun c => decide (c ≠ '/'))).length ≤ 2) &&
        yPart.all Char.isDigit && decide (yPart.length = 4) &&
        decide (1 ≤ digitsToNat (s.data.takeWhile (fun c => decide (c ≠ '/')))) &&
        decide (digitsToNat (s.data.takeWhile (fun c => decide (c ≠ '/'))) ≤ 12) then
      some (digitsToNat yPart * 12 +
        (digitsToNat (s.data.takeWhile (fun c => decide (c ≠ '/'))) - 1))
    else none
  | _ => none

/-- One raw CSV record: the category column, the flow-month column and the
thirteen designated numeric columns of `numeric_cols` (lines 16-20), all as
the strings read from the file. -/
structure RawRow where
  intBU : String
  flowMonth : String
  legPosition : String
  bblPosition : String
  usgPosition : String
  lbsPosition : String
  m3Position : String
  bblProductFactor : String
  usgProductFactor : String
  lbsProductFactor : String
  m3ProductFactor : String
  bbl2Factor : String
  lbs2Factor : String
  usgFactor : String
  m32Factor : String
deriving DecidableEq

/-- One normalized record: the (possibly pseudonymized) category, the parsed
flow month (`none` = NaT sentinel) and the thirteen numeric fields as exact
rationals. -/
structure Row where
  intBU : String
  flowMonth : Option Nat
  legPosition : ℚ
  bblPosition : ℚ
  usgPosition : ℚ
  lbsPosition : ℚ
  m3Position : ℚ
  bblProductFactor : ℚ
  usgProductFactor : ℚ
  lbsProductFactor : ℚ
  m3ProductFactor : ℚ
  bbl2Factor : ℚ
  lbs2Factor : ℚ
  usgFactor : ℚ
  m32Factor : ℚ
deriving DecidableEq

/-- Normalization of one record: `normalizeCell` on each of the thirteen
numeric columns (the loop of lines 23-25) and month parsing (line 46).
The category value is carried through unchanged; pseudonymization is a
separate later step. -/
def normalizeRow (r : RawRow) : Row where
  intBU := r.intBU
  flowMonth := parseMonth r.flowMonth
  legPosition := normalizeCell r.legPosition
  bblPosition := normalizeCell r.bblPosition
  usgPosition := normalizeCell r.usgPosition
  lbsPosition := normalizeCell r.lbsPosition
  m3Position := normalizeCell r.m3Position
  bblProductFactor := normalizeCell r.bblProductFactor
  usgProductFactor := normalizeCell r.usgProductFactor
  lbsProductFactor := normalizeCell r.lbsProductFactor
  m3ProductFactor := normalizeCell r.m3ProductFactor
  bbl2Factor := normalizeCell r.bbl2Factor
  lbs2Factor := normalizeCell r.lbs2Factor
  usgFactor := normalizeCell r.usgFactor
  m32Factor := normalizeCell r.m32Factor

/-- The coercion part of `load_data` (lines 11-27) applied to every record. -/
def load_data (raw : List RawRow) : List Row :=
  raw.map normalizeRow

/-- First-seen-order deduplication: the model of pandas `Series.unique()`
(line 32), which returns the distinct values in order of first appearance. -/
def dedup {α : Type} [DecidableEq α] : List α → List α
  | [] => []
  | x :: xs => x :: dedup (xs.filter (fun y => decide (y ≠ x)))
termination_by l => l.length
decreasing_by simpa using Nat.lt_succ_of_le (List.length_filter_le _ xs)

/-- The pseudonym for position `i` (0-based) of the distinct-value list:
`f"BU-{i+1}"` (line 33). -/
def pseudoLabel (i : Nat) : String := "BU-" ++ natDecimal (i + 1)

/-- First index of `a` in a list, `none` when absent. -/
def idxOf? {α : Type} [DecidableEq α] (a : α) : List α → Option Nat
  | [] => none
  | x :: xs => if x = a then some 0 else (idxOf? a xs).map (fun i => i + 1)

/-- The dictionary `bu_mapping` (line 33) built over the distinct values
`us`: a value found at first index `i` maps to `pseudoLabel i`; a value not
among the distinct values is absent from the dictionary (`none`). -/
def bu_mapping (us : List String) (v : String) : Option String :=
  (idxOf? v us).map pseudoLabel

/-- Lines 32-34 of `main.py`: build the distinct `Int BU` list of the table,
then rewrite every row's `Int BU` through `bu_mapping`.  (For a value in the
table the dictionary lookup always succeeds, so the `getD` fallback is
never exercised.) -/
def pseudonymize (t : List Row) : List Row :=
  t.map (fun r =>
    { r with intBU := (bu_mapping (dedup (t.map Row.intBU)) r.intBU).getD r.intBU })

/-- A filter selection: the chosen category pseudonyms (`selected_bu`,
line 43) and the inclusive start/end months (lines 51-52). -/
structure Selection where
  categories : List String
  startMonth : Nat
  endMonth : Nat
deriving DecidableEq

/-- The per-row filtering predicate of lines 55-59:
`Int BU ∈ selected_bu` and `start ≤ Flow Month ≤ end`.  A sentinel (NaT)
month compares false on both bounds, exactly as in pandas. -/
def rowMatches (sel : Selection) (r : Row) : Bool :=
  decide (r.intBU ∈ sel.categories) &&
    match r.flowMonth with
    | none => false
    | some m => decide (sel.startMonth ≤ m) && decide (m ≤ sel.endMonth)

/-- `df_filtered` (lines 55-59): the rows of the table satisfying the
selection predicate, in order. -/
def filterTable (sel : Selection) (t : List Row) : List Row :=
  t.filter (rowMatches sel)

/-- Sum of one numeric field over a table. -/
def sumBy (f : Row → ℚ) (l : List Row) : ℚ := (l.map f).sum

/-- One row of `bu_group`: a category pseudonym with its three volume sums. -/
structure CatTotal where
  intBU : String
  m3 : ℚ
  bbl : ℚ
  lbs : ℚ
deriving DecidableEq

/-- `bu_group` (line 72): group the filtered table by `Int BU` and sum the
`M3-Position`, `BBL-Position` and `LBS-Position` columns per group (one
output row per distinct category of the input). -/
def bu_group (t : List Row) : List CatTotal :=
  (dedup (t.map Row.intBU)).map (fun b =>
    { intBU := b
      m3 := sumBy Row.m3Position (t.filter (fun r => decide (r.intBU = b)))
      bbl := sumBy Row.bblPosition (t.filter (fun r => decide (r.intBU = b)))
      lbs := sumBy Row.lbsPosition (t.filter (fun r => decide (r.intBU = b))) })

/-- Insert into a list sorted by the boolean comparison `le`. -/
def insertSorted (le : CatTotal → CatTotal → Bool) (x : CatTotal) :
    List CatTotal → List CatTotal
  | [] => [x]
  | y :: ys => if le x y then x :: y :: ys else y :: insertSorted le x ys

/-- Sorting of the group table by a boolean comparison: the model of
`DataFrame.sort_values`. -/
def sortRows (le : CatTotal → CatTotal → Bool) : List CatTotal → List CatTotal
  | [] => []
  | x :: xs => insertSorted le x (sortRows le xs)

/-- Positional access `iloc[0]`: `none` models the `IndexError` raised on an
empty frame. -/
def iloc0 {α : Type} (l : List α) : Option α := l.head?

/-- `top_bu` (line 97): first row after sorting by `M3-Position` descending;
`none` models the `IndexError` of `iloc[0]` on an empty group table. -/
def top_bu (g : List CatTotal) : Option CatTotal :=
  iloc0 (sortRows (fun a b => decide (b.m3 ≤ a.m3)) g)

/-- `least_bu` (line 98): first row after sorting by `M3-Position`
ascending; `none` models the `IndexError` of `iloc[0]` on an empty group
table. -/
def least_bu (g : List CatTotal) : Option CatTotal :=
  iloc0 (sortRows (fun a b => decide (a.m3 ≤ b.m3)) g)

/-- Column mean as pandas computes it: sum over count, with the
missing-value marker NaN (modelled `none`) on an empty column. -/
def meanBy (f : Row → ℚ) (l : List Row) : Option ℚ :=
  if l.isEmpty then none else some ((l.map f).sum / (l.length : ℚ))

/-- `factor_data` (line 86): the means of the three product conversion
factors over the filtered table. -/
def factor_data (t : List Row) : Option ℚ × Option ℚ × Option ℚ :=
  (meanBy Row.bblProductFactor t, meanBy Row.usgProductFactor t,
    meanBy Row.lbsProductFactor t)

/-- The net-direction insight (lines 103-106): the label is chosen by the
sign of the overall `M3-Position` sum of the filtered table. -/
def netDirection (t : List Row) : String :=
  if sumBy Row.m3Position t < 0 then "net withdrawal" else "net injection"

/-- A row with the given category, flow month and `M3-Position`, all other
numeric fields zero: used to build concrete tables. -/
def mkRow (bu : String) (fm : Option Nat) (m3 : ℚ) : Row :=
  ⟨bu, fm, 0, 0, 0, 0, m3, 0, 0, 0, 0, 0, 0, 0, 0⟩

/-- A concrete raw record whose thirteen numeric cells all read `"1,234 "`. -/
def exRaw : RawRow :=
  ⟨"Acme", "01/2024", "1,234 ", "1,234 ", "1,234 ", "1,234 ", "1,234 ",
    "1,234 ", "1,234 ", "1,234 ", "1,234 ", "1,234 ", "1,234 ", "1,234 ", "1,234 "⟩

/-- A row matching `exSel`. -/
def rowIn : Row := mkRow "BU-1" (some 5) 10

/-- A row whose category is outside `exSel`. -/
def rowOut : Row := mkRow "BU-2" (some 5) (-3)

/-- A row with the sentinel (NaT) flow month. -/
def rowNaT : Row := mkRow "BU-1" none 7

/-- A concrete selection covering months 0-100 of category `BU-1` only. -/
def exSel : Selection := ⟨["BU-1"], 0, 100⟩

/-- A concrete three-row table. -/
def exTable : List Row := [rowIn, rowOut, rowNaT]

/-- A selection with every category deselected. -/
def emptySel : Selection := ⟨[], 0, 0⟩

/-- A concrete table with two distinct categories, `"Acme"` seen first. -/
def exTable7 : List Row :=
  [mkRow "Acme" (some 0) 1, mkRow "Acme" (some 1) 2, mkRow "Globex" (some 0) 3]

/-! ### Decimal rendering and parsing lemmas -/

theorem digitChar_toNat (d : Nat) (hd : d < 10) : (digitChar d).toNat = 48 + d := by
  revert hd
  revert d
  decide

theorem digitChar_isDigit (d : Nat) (hd : d < 10) : (digitChar d).isDigit = true := by
  revert hd
  revert d
  decide

theorem natDecimalAux_all_digits :
    ∀ fuel n c, c ∈ natDecimalAux fuel n → c.isDigit = true := by
  intro fuel
  induction fuel with
  | zero => intro n c hc; simp [natDecimalAux] at hc
  | succ f ih =>
    intro n c hc
    match n with
    | 0 => simp [natDecimalAux] at hc
    | m + 1 =>
      rw [natDecimalAux] at hc
      rcases List.mem_append.mp hc with h | h
      · exact ih _ _ h
      · have : c = digitChar ((m + 1) % 10) := by simpa using h
        rw [this]
        exact digitChar_isDigit _ (Nat.mod_lt _ (by norm_num))

theorem digitsToNat_append_digit (l : List Char) (c : Char) :
    digitsToNat (l ++ [c]) = 10 * digitsToNat l + (c.toNat - 48) := by
  simp [digitsToNat, List.foldl_append]

theorem natDecimalAux_val : ∀ fuel n, n ≤ fuel → digitsToNat (natDecimalAux fuel n) = n := by
  intro fuel
  induction fuel with
  | zero =>
    intro n hn
    have : n = 0 := Nat.le_zero.mp hn
    subst this
    simp [natDecimalAux, digitsToNat]
  | succ f ih =>
    intro n hn
    match n with
    | 0 => simp [natDecimalAux, digitsToNat]
    | m + 1 =>
      rw [natDecimalAux, digitsToNat_append_digit]
      have hdiv : (m + 1) / 10 ≤ f := by
        have h1 : (m + 1) / 10 < m + 1 := Nat.div_lt_self (Nat.succ_pos m) (by norm_num)
        omega
      rw [ih _ hdiv, digitChar_toNat _ (Nat.mod_lt _ (by norm_num))]
      omega

theorem natDecimalAux_ne_nil (n : Nat) (hn : n ≠ 0) : natDecimalAux n n ≠ [] := by
  match n with
  | 0 => exact absurd rfl hn
  | m + 1 =>
    rw [natDecimalAux]
    simp

theorem natDecimal_data_val (n : Nat) : digitsToNat (natDecimal n).data = n := by
  by_cases hn : n = 0
  · subst hn
    simp [natDecimal, digitsToNat]
  · simp only [natDecimal, if_neg hn]
    exact natDecimalAux_val n n le_rfl

theorem natDecimal_data_digits (n : Nat) :
    ∀ c ∈ (natDecimal n).data, c.isDigit = true := by
  intro c hc
  by_cases hn : n = 0
  · subst hn
    simp [natDecimal] at hc
    rw [hc]
    decide
  · simp only [natDecimal, if_neg hn] at hc
    exact natDecimalAux_all_digits n n c hc

theorem natDecimal_data_ne_nil (n : Nat) : (natDecimal n).data ≠ [] := by
  by_cases hn : n = 0
  · subst hn
    simp [natDecimal]
  · simp only [natDecimal, if_neg hn]
    exact natDecimalAux_ne_nil n hn

theorem natDecimal_injective (a b : Nat) (h : natDecimal a = natDecimal b) : a = b := by
  have hd : (natDecimal a).data = (natDecimal b).data := by rw [h]
  have := natDecimal_data_val a
  rw [hd, natDecimal_data_val b] at this
  exact this.symm

theorem pseudoLabel_injective (i j : Nat) (h : pseudoLabel i = pseudoLabel j) : i = j := by
  have hd : (pseudoLabel i).data = (pseudoLabel j).data := by rw [h]
  simp only [pseudoLabel, String.data_append] at hd
  have hdd : (natDecimal (i + 1)).data = (natDecimal (j + 1)).data :=
    List.append_cancel_left hd
  have : natDecimal (i + 1) = natDecimal (j + 1) := by
    cases hni : natDecimal (i + 1) with
    | mk di =>
      cases hnj : natDecimal (j + 1) with
      | mk dj =>
        rw [hni, hnj] at hdd
        exact congrArg String.mk (by simpa using hdd)
  have := natDecimal_injective _ _ this
  omega

theorem takeWhile_all {α : Type} (p : α → Bool) (l : List α)
    (h : ∀ c ∈ l, p c = true) : l.takeWhile p = l := by
  induction l with
  | nil => rfl
  | cons x xs ih =>
    simp [List.takeWhile_cons, h x (List.mem_cons_self x xs),
      ih (fun c hc => h c (List.mem_cons_of_mem x hc))]

theorem dropWhile_all {α : Type} (p : α → Bool) (l : List α)
    (h : ∀ c ∈ l, p c = true) : l.dropWhile p = [] := by
  induction l with
  | nil => rfl
  | cons x xs ih =>
    simp [List.dropWhile_cons, h x (List.mem_cons_self x xs),
      ih (fun c hc => h c (List.mem_cons_of_mem x hc))]

theorem parseUnsigned_digits (l : List Char) (hne : l ≠ [])
    (hdig : ∀ c ∈ l, c.isDigit = true) :
    parseUnsigned l = some ((digitsToNat l : ℚ)) := by
  rw [parseUnsigned]
  rw [dropWhile_all _ _ hdig, takeWhile_all _ _ hdig]
  simp [List.isEmpty_iff, hne]

theorem isDigit_ne_minus (c : Char) (h : c.isDigit = true) : c ≠ '-' := by
  intro hc
  rw [hc] at h
  exact absurd h (by decide)

theorem isDigit_ne_plus (c : Char) (h : c.isDigit = true) : c ≠ '+' := by
  intro hc
  rw [hc] at h
  exact absurd h (by decide)

theorem parseNumeric_digits (l : List Char) (hne : l ≠ [])
    (hdig : ∀ c ∈ l, c.isDigit = true) :
    parseNumeric l = some ((digitsToNat l : ℚ)) := by
  match l with
  | [] => exact absurd rfl hne
  | c :: rest =>
    have hc : c.isDigit = true := hdig c (List.mem_cons_self c rest)
    rw [parseNumeric]
    rw [if_neg (isDigit_ne_minus c hc), if_neg (isDigit_ne_plus c hc)]
    exact parseUnsigned_digits _ hne hdig

/-- Core of claim C3: a cell whose comma/space-stripped content is the
decimal numeral of `n` normalizes to `n`. -/
theorem normalizeCell_decimal (s : String) (n : Nat)
    (h : stripCell s = (natDecimal n).data) : normalizeCell s = (n : ℚ) := by
  rw [normalizeCell, h,
    parseNumeric_digits _ (natDecimal_data_ne_nil n) (natDecimal_data_digits n),
    natDecimal_data_val]
  rfl

/-! ### Deduplication and index lemmas -/

theorem mem_dedup {α : Type} [DecidableEq α] (l : List α) (a : α) :
    a ∈ dedup l ↔ a ∈ l := by
  induction l using dedup.induct with
  | case1 => simp [dedup]
  | case2 x xs ih =>
    rw [dedup]
    simp only [List.mem_cons, ih, List.mem_filter]
    constructor
    · rintro (rfl | ⟨h, _⟩)
      · exact Or.inl rfl
      · exact Or.inr h
    · intro h
      rcases h with rfl | h
      · exact Or.inl rfl
      · by_cases hax : a = x
        · exact Or.inl hax
        · exact Or.inr ⟨h, by simpa using hax⟩

theorem dedup_nodup {α : Type} [DecidableEq α] (l : List α) : (dedup l).Nodup := by
  induction l using dedup.induct with
  | case1 => simp [dedup]
  | case2 x xs ih =>
    rw [dedup]
    refine List.nodup_cons.mpr ⟨?_, ih⟩
    intro hmem
    have := (mem_dedup _ _).mp hmem
    simp at this

theorem idxOf?_of_mem {α : Type} [DecidableEq α] (a : α) :
    ∀ (l : List α), a ∈ l →
      ∃ i, idxOf? a l = some i ∧ ∃ hi : i < l.length, l.get ⟨i, hi⟩ = a := by
  intro l
  induction l with
  | nil => intro h; simp at h
  | cons x xs ih =>
    intro h
    by_cases hxa : x = a
    · exact ⟨0, by simp [idxOf?, hxa], Nat.succ_pos _, hxa⟩
    · have hmem : a ∈ xs := by
        rcases List.mem_cons.mp h with rfl | h2
        · exact absurd rfl hxa
        · exact h2
      obtain ⟨i, hfind, hi, hget⟩ := ih hmem
      refine ⟨i + 1, ?_, Nat.succ_lt_succ hi, ?_⟩
      · simp [idxOf?, hxa, hfind]
      · simpa using hget

theorem idxOf?_get_nodup {α : Type} [DecidableEq α] :
    ∀ (l : List α), l.Nodup → ∀ (k : Nat) (hk : k < l.length),
      idxOf? (l.get ⟨k, hk⟩) l = some k := by
  intro l
  induction l with
  | nil => intro _ k hk; simp at hk
  | cons x xs ih =>
    intro hnd k hk
    match k with
    | 0 => simp [idxOf?]
    | k + 1 =>
      have hget : (x :: xs).get ⟨k + 1, hk⟩ = xs.get ⟨k, Nat.lt_of_succ_lt_succ hk⟩ := rfl
      rw [hget]
      have hxne : ¬(x = xs.get ⟨k, Nat.lt_of_succ_lt_succ hk⟩) := by
        intro hx
        have hxs : x ∈ xs := by
          rw [hx]
          exact xs.get_mem _ _
        exact (List.nodup_cons.mp hnd).1 hxs
      rw [idxOf?, if_neg hxne, ih (List.nodup_cons.mp hnd).2 k (Nat.lt_of_succ_lt_succ hk)]
      rfl

theorem filter_map_comm {α β : Type} (f : α → β) (p : β → Bool) :
    ∀ l : List α, (l.map f).filter p = (l.filter (fun a => p (f a))).map f := by
  intro l
  induction l with
  | nil => rfl
  | cons x xs ih =>
    by_cases hp : p (f x)
    · simp [hp, ih]
    · simp [hp, ih]

theorem dedup_map {α β : Type} [DecidableEq α] [DecidableEq β] (f : α → β) :
    ∀ l : List α, (∀ a ∈ l, ∀ b ∈ l, f a = f b → a = b) →
      dedup (l.map f) = (dedup l).map f := by
  intro l
  induction l using dedup.induct with
  | case1 => intro _; simp [dedup]
  | case2 x xs ih =>
    intro hinj
    have hxmem : x ∈ x :: xs := List.mem_cons_self x xs
    rw [List.map_cons, dedup, dedup, List.map_cons, filter_map_comm]
    have hfc : xs.filter (fun a => decide (f a ≠ f x)) = xs.filter (fun a => decide (a ≠ x)) := by
      apply List.filter_congr
      intro a ha
      by_cases hax : a = x
      · subst hax
        simp
      · have hfax : ¬(f a = f x) := fun hfe =>
          hax (hinj a (List.mem_cons_of_mem x ha) x hxmem hfe)
        simp [hax, hfax]
    rw [hfc, ih]
    intro a ha b hb hfe
    exact hinj a (List.mem_cons_of_mem x (List.mem_of_mem_filter ha)) b
      (List.mem_cons_of_mem x (List.mem_of_mem_filter hb)) hfe

/-! ### Group-by-sum partition lemmas -/

theorem sumBy_nil (f : Row → ℚ) : sumBy f [] = 0 := rfl

theorem sumBy_cons (f : Row → ℚ) (r : Row) (l : List Row) :
    sumBy f (r :: l) = f r + sumBy f l := by
  simp [sumBy]

theorem sum_filter_not (f : Row → ℚ) (p : Row → Bool) :
    ∀ l : List Row, sumBy f (l.filter p) + sumBy f (l.filter (fun r => !(p r))) = sumBy f l := by
  intro l
  induction l with
  | nil => simp [sumBy]
  | cons x xs ih =>
    by_cases hp : p x
    · have h1 : (x :: xs).filter p = x :: xs.filter p := by simp [List.filter_cons, hp]
      have h2 : (x :: xs).filter (fun r => !(p r)) = xs.filter (fun r => !(p r)) := by
        simp [List.filter_cons, hp]
      rw [h1, h2, sumBy_cons, sumBy_cons, add_assoc, ih]
    · have h1 : (x :: xs).filter p = xs.filter p := by simp [List.filter_cons, hp]
      have h2 : (x :: xs).filter (fun r => !(p r)) = x :: xs.filter (fun r => !(p r)) := by
        simp [List.filter_cons, hp]
      rw [h1, h2, sumBy_cons, sumBy_cons, add_left_comm, ih]

theorem map_sum_congr (F G : String → ℚ) :
    ∀ ks : List String, (∀ b ∈ ks, F b = G b) → (ks.map F).sum = (ks.map G).sum := by
  intro ks
  induction ks with
  | nil => intro _; rfl
  | cons b bs ih =>
    intro h
    simp only [List.map_cons, List.sum_cons]
    rw [h b (List.mem_cons_self b bs), ih (fun c hc => h c (List.mem_cons_of_mem b hc))]

theorem sum_partition (f : Row → ℚ) :
    ∀ (ks : List String) (l : List Row), ks.Nodup → (∀ r ∈ l, r.intBU ∈ ks) →
      ((ks.map (fun b => sumBy f (l.filter (fun r => decide (r.intBU = b))))).sum = sumBy f l) := by
  intro ks
  induction ks with
  | nil =>
    intro l _ hcov
    match l with
    | [] => rfl
    | r :: rest => exact absurd (hcov r (List.mem_cons_self r rest)) (by simp)
  | cons b bs ih =>
    intro l hnd hcov
    simp only [List.map_cons, List.sum_cons]
    have hbs : b ∉ bs := (List.nodup_cons.mp hnd).1
    have htail :
        ∀ b2 ∈ bs, (l.filter (fun r => decide (r.intBU = b2))) =
          ((l.filter (fun r => !(decide (r.intBU = b)))).filter (fun r => decide (r.intBU = b2))) := by
      intro b2 hb2
      rw [List.filter_filter]
      apply List.filter_congr
      intro r _
      have hne : ¬(b2 = b) := fun hbb => hbs (hbb ▸ hb2)
      by_cases hr : r.intBU = b2
      · have hrb : ¬(r.intBU = b) := by
          rw [hr]
          exact hne
        simp [hr, hrb, hne]
      · simp [hr]
    have hmaps :
        (bs.map (fun b2 => sumBy f (l.filter (fun r => decide (r.intBU = b2))))).sum =
          (bs.map (fun b2 => sumBy f
            ((l.filter (fun r => !(decide (r.intBU = b)))).filter
              (fun r => decide (r.intBU = b2))))).sum := by
      apply map_sum_congr
      intro b2 hb2
      rw [htail b2 hb2]
    rw [hmaps, ih (l.filter (fun r => !(decide (r.intBU = b)))) (List.nodup_cons.mp hnd).2]
    · exact sum_filter_not f (fun r => decide (r.intBU = b)) l
    · intro r hr
      have hrl : r ∈ l := List.mem_of_mem_filter hr
      have hrb : ¬(r.intBU = b) := by
        have := List.of_mem_filter hr
        simpa using this
      have := hcov r hrl
      rcases List.mem_cons.mp this with hc | hc
      · exact absurd hc hrb
      · exact hc

/-! ### Pseudonymization lemmas -/

theorem map_id_of_eq {α : Type} (f : α → α) :
    ∀ l : List α, (∀ a ∈ l, f a = a) → l.map f = l := by
  intro l
  induction l with
  | nil => intro _; rfl
  | cons x xs ih =>
    intro h
    rw [List.map_cons, h x (List.mem_cons_self x xs),
      ih (fun a ha => h a (List.mem_cons_of_mem x ha))]

theorem pseudoLabel_inj_fun : Function.Injective pseudoLabel :=
  fun a b h => pseudoLabel_injective a b h

theorem bu_mapping_mem (t : List Row) (v : String) (hv : v ∈ t.map Row.intBU) :
    ∃ i, i < (dedup (t.map Row.intBU)).length ∧
      bu_mapping (dedup (t.map Row.intBU)) v = some (pseudoLabel i) := by
  have hmem : v ∈ dedup (t.map Row.intBU) := (mem_dedup _ _).mpr hv
  obtain ⟨i, hfi, hi, _⟩ := idxOf?_of_mem v _ hmem
  refine ⟨i, hi, ?_⟩
  rw [bu_mapping, hfi]
  rfl

theorem pseudonymize_injOn (t : List Row) :
    ∀ a ∈ t.map Row.intBU, ∀ b ∈ t.map Row.intBU,
      (bu_mapping (dedup (t.map Row.intBU)) a).getD a =
        (bu_mapping (dedup (t.map Row.intBU)) b).getD b → a = b := by
  intro a ha b hb h
  obtain ⟨i, hfi, hii, hgi⟩ := idxOf?_of_mem a _ ((mem_dedup _ _).mpr ha)
  obtain ⟨j, hfj, hij, hgj⟩ := idxOf?_of_mem b _ ((mem_dedup _ _).mpr hb)
  rw [bu_mapping, hfi, bu_mapping, hfj] at h
  simp only [Option.map_some', Option.getD_some] at h
  have hije : i = j := pseudoLabel_injective i j h
  subst hije
  rw [← hgi, ← hgj]

theorem bu_mapping_pseudoLabel (n i : Nat) (hi : i < n) :
    bu_mapping ((List.range n).map pseudoLabel) (pseudoLabel i) = some (pseudoLabel i) := by
  have hnd : ((List.range n).map pseudoLabel).Nodup :=
    (List.nodup_range n).map pseudoLabel_inj_fun
  have hlen : i < ((List.range n).map pseudoLabel).length := by simpa using hi
  have hget : ((List.range n).map pseudoLabel).get ⟨i, hlen⟩ = pseudoLabel i := by
    simp [List.get_eq_getElem]
  have h2 := idxOf?_get_nodup _ hnd i hlen
  rw [hget] at h2
  rw [bu_mapping, h2]
  rfl

theorem dedup_pseudonymize (t : List Row) :
    dedup ((pseudonymize t).map Row.intBU) =
      (List.range (dedup (t.map Row.intBU)).length).map pseudoLabel := by
  have hkeys : (pseudonymize t).map Row.intBU =
      (t.map Row.intBU).map
        (fun v => (bu_mapping (dedup (t.map Row.intBU)) v).getD v) := by
    simp only [pseudonymize, List.map_map]
    rfl
  rw [hkeys, dedup_map _ _ (pseudonymize_injOn t)]
  apply List.ext_getElem
  · simp
  · intro i h1 h2
    rw [List.getElem_map, List.getElem_map, List.getElem_range]
    have hlen : i < (dedup (t.map Row.intBU)).length := by simpa using h1
    have hget : (dedup (t.map Row.intBU))[i] =
        (dedup (t.map Row.intBU)).get ⟨i, hlen⟩ := rfl
    rw [hget, bu_mapping, idxOf?_get_nodup _ (dedup_nodup _) i hlen]
    rfl

theorem pseudonymize_idem (t : List Row) :
    pseudonymize (pseudonymize t) = pseudonymize t := by
  conv_lhs => rw [pseudonymize]
  rw [dedup_pseudonymize]
  apply map_id_of_eq
  intro r hr
  rw [pseudonymize] at hr
  obtain ⟨r0, hr0, hre⟩ := List.mem_map.mp hr
  obtain ⟨i, hi, hbm⟩ :=
    bu_mapping_mem t r0.intBU (List.mem_map_of_mem Row.intBU hr0)
  have hru : r.intBU = pseudoLabel i := by
    rw [← hre, hbm]
    rfl
  have hstep :
      (bu_mapping ((List.range (dedup (t.map Row.intBU)).length).map pseudoLabel)
        r.intBU).getD r.intBU = r.intBU := by
    rw [hru, bu_mapping_pseudoLabel _ i hi]
    rfl
  rw [hstep]

/-! ### Claim theorems -/

/-- C1: for every filter selection, the filtered table is a sublist of the
normalized table, every surviving row has its category among the selected
pseudonyms and a parsed flow month inside the inclusive range, any row
outside the selection (wrong category, sentinel month, or month out of
range) is excluded, and in particular sentinel-month rows never appear. -/
theorem claim_C1 (sel : Selection) (t : List Row) :
    List.Sublist (filterTable sel t) t ∧
    (∀ r, r ∈ filterTable sel t → r.intBU ∈ sel.categories ∧
      ∃ m, r.flowMonth = some m ∧ sel.startMonth ≤ m ∧ m ≤ sel.endMonth) ∧
    (∀ r, (r.intBU ∉ sel.categories ∨ r.flowMonth = none ∨
        (∀ m, r.flowMonth = some m → ¬(sel.startMonth ≤ m ∧ m ≤ sel.endMonth))) →
      r ∉ filterTable sel t) := by
  have h2 : ∀ r, r ∈ filterTable sel t → r.intBU ∈ sel.categories ∧
      ∃ m, r.flowMonth = some m ∧ sel.startMonth ≤ m ∧ m ≤ sel.endMonth := by
    intro r hr
    have hm := (List.mem_filter.mp hr).2
    rw [rowMatches] at hm
    rcases hb : r.flowMonth with _ | m
    · rw [hb] at hm
      simp at hm
    · rw [hb] at hm
      simp only [Bool.and_eq_true, decide_eq_true_eq] at hm
      exact ⟨hm.1, m, rfl, hm.2.1, hm.2.2⟩
  refine ⟨List.filter_sublist t, h2, ?_⟩
  intro r hcond hr
  obtain ⟨hcat, m, hfm, hlo, hhi⟩ := h2 r hr
  rcases hcond with hc | hc | hc
  · exact hc hcat
  · rw [hc] at hfm
    exact Option.noConfusion hfm
  · exact hc m hfm ⟨hlo, hhi⟩

/-- C1 witness: on a concrete table, the surviving row satisfies the
predicate and the out-of-selection and sentinel-month rows are excluded. -/
theorem claim_C1_witness :
    (rowIn.intBU ∈ exSel.categories ∧
      ∃ m, rowIn.flowMonth = some m ∧ exSel.startMonth ≤ m ∧ m ≤ exSel.endMonth) ∧
    rowOut ∉ filterTable exSel exTable ∧
    rowNaT ∉ filterTable exSel exTable := by
  have h := claim_C1 exSel exTable
  refine ⟨h.2.1 rowIn (by decide), ?_, ?_⟩
  · exact h.2.2 rowOut (Or.inl (by decide))
  · exact h.2.2 rowNaT (Or.inr (Or.inl rfl))

/-- C2: a selection with every category deselected yields an empty filtered
table, an empty group table and absent factor means; the top/least insight
computation, however, fails on the empty group table (`none` here models the
`IndexError` that `iloc[0]` raises on line 97), so the insight step does
raise instead of reporting an absent value. -/
theorem claim_C2 (t : List Row) (sel : Selection) (h : sel.categories = []) :
    filterTable sel t = [] ∧
    bu_group (filterTable sel t) = [] ∧
    top_bu (bu_group (filterTable sel t)) = none ∧
    least_bu (bu_group (filterTable sel t)) = none ∧
    factor_data (filterTable sel t) = (none, none, none) := by
  have hf : filterTable sel t = [] := by
    rw [filterTable]
    induction t with
    | nil => rfl
    | cons r rest ih =>
      rw [List.filter_cons]
      have : rowMatches sel r = false := by
        rw [rowMatches, h]
        simp
      rw [this]
      simpa using ih
  rw [hf]
  refine ⟨rfl, ?_, ?_, ?_, ?_⟩
  · simp [bu_group, dedup]
  · simp [top_bu, bu_group, dedup, sortRows, iloc0]
  · simp [least_bu, bu_group, dedup, sortRows, iloc0]
  · simp [factor_data, meanBy]

/-- C2 witness: the empty-selection facts at a concrete table. -/
theorem claim_C2_witness :
    filterTable emptySel exTable = [] ∧
    bu_group (filterTable emptySel exTable) = [] ∧
    top_bu (bu_group (filterTable emptySel exTable)) = none ∧
    least_bu (bu_group (filterTable emptySel exTable)) = none ∧
    factor_data (filterTable emptySel exTable) = (none, none, none) :=
  claim_C2 exTable emptySel rfl

/-- C3: for each of the thirteen designated numeric fields, a cell whose
comma/space-stripped character content is the decimal numeral of `n`
normalizes to the numeric value `n` — stripping commas and spaces and then
parsing, e.g. `"1,234 "` yields `1234`. -/
theorem claim_C3 (r : RawRow) (n : Nat) :
    (stripCell r.legPosition = (natDecimal n).data →
      (normalizeRow r).legPosition = (n : ℚ)) ∧
    (stripCell r.bblPosition = (natDecimal n).data →
      (normalizeRow r).bblPosition = (n : ℚ)) ∧
    (stripCell r.usgPosition = (natDecimal n).data →
      (normalizeRow r).usgPosition = (n : ℚ)) ∧
    (stripCell r.lbsPosition = (natDecimal n).data →
      (normalizeRow r).lbsPosition = (n : ℚ)) ∧
    (stripCell r.m3Position = (natDecimal n).data →
      (normalizeRow r).m3Position = (n : ℚ)) ∧
    (stripCell r.bblProductFactor = (natDecimal n).data →
      (normalizeRow r).bblProductFactor = (n : ℚ)) ∧
    (stripCell r.usgProductFactor = (natDecimal n).data →
      (normalizeRow r).usgProductFactor = (n : ℚ)) ∧
    (stripCell r.lbsProductFactor = (natDecimal n).data →
      (normalizeRow r).lbsProductFactor = (n : ℚ)) ∧
    (stripCell r.m3ProductFactor = (natDecimal n).data →
      (normalizeRow r).m3ProductFactor = (n : ℚ)) ∧
    (stripCell r.bbl2Factor = (natDecimal n).data →
      (normalizeRow r).bbl2Factor = (n : ℚ)) ∧
    (stripCell r.lbs2Factor = (natDecimal n).data →
      (normalizeRow r).lbs2Factor = (n : ℚ)) ∧
    (stripCell r.usgFactor = (natDecimal n).data →
      (normalizeRow r).usgFactor = (n : ℚ)) ∧
    (stripCell r.m32Factor = (natDecimal n).data →
      (normalizeRow r).m32Factor = (n : ℚ)) :=
  ⟨fun h => normalizeCell_decimal _ _ h, fun h => normalizeCell_decimal _ _ h,
    fun h => normalizeCell_decimal _ _ h, fun h => normalizeCell_decimal _ _ h,
    fun h => normalizeCell_decimal _ _ h, fun h => normalizeCell_decimal _ _ h,
    fun h => normalizeCell_decimal _ _ h, fun h => normalizeCell_decimal _ _ h,
    fun h => normalizeCell_decimal _ _ h, fun h => normalizeCell_decimal _ _ h,
    fun h => normalizeCell_decimal _ _ h, fun h => normalizeCell_decimal _ _ h,
    fun h => normalizeCell_decimal _ _ h⟩

/-- C3 witness: a raw record whose thirteen numeric cells all read
`"1,234 "` normalizes to `1234` in every numeric field. -/
theorem claim_C3_witness :
    (normalizeRow exRaw).legPosition = (1234 : ℚ) ∧
    (normalizeRow exRaw).bblPosition = (1234 : ℚ) ∧
    (normalizeRow exRaw).usgPosition = (1234 : ℚ) ∧
    (normalizeRow exRaw).lbsPosition = (1234 : ℚ) ∧
    (normalizeRow exRaw).m3Position = (1234 : ℚ) ∧
    (normalizeRow exRaw).bblProductFactor = (1234 : ℚ) ∧
    (normalizeRow exRaw).usgProductFactor = (1234 : ℚ) ∧
    (normalizeRow exRaw).lbsProductFactor = (1234 : ℚ) ∧
    (normalizeRow exRaw).m3ProductFactor = (1234 : ℚ) ∧
    (normalizeRow exRaw).bbl2Factor = (1234 : ℚ) ∧
    (normalizeRow exRaw).lbs2Factor = (1234 : ℚ) ∧
    (normalizeRow exRaw).usgFactor = (1234 : ℚ) ∧
    (normalizeRow exRaw).m32Factor = (1234 : ℚ) := by
  obtain ⟨h1, h2, h3, h4, h5, h6, h7, h8, h9, h10, h11, h12, h13⟩ :=
    claim_C3 exRaw 1234
  exact ⟨h1 (by decide), h2 (by decide), h3 (by decide), h4 (by decide),
    h5 (by decide), h6 (by decide), h7 (by decide), h8 (by decide),
    h9 (by decide), h10 (by decide), h11 (by decide), h12 (by decide),
    h13 (by decide)⟩

/-- C4 counterexample: the claim fails on the code as stated.  The cell
`"inf"` is parsed by `pd.to_numeric` rather than coerced to NaN,
`fillna(0)` does not replace it, and it survives normalization as a
non-finite value, refuting the claimed finiteness of every normalized
field; the cell `"1e5"` likewise parses to `100000` instead of being
treated as unparseable. -/
theorem claim_C4_counterexample :
    normalizeCellFull "inf" = PdValue.posInf ∧
    (normalizeCellFull "inf").isFinite = false ∧
    normalizeCellFull "1e5" = PdValue.num 100000 := by
  refine ⟨by decide, by decide, ?_⟩
  have hd : digitsToNat ['1'] = 1 := by decide
  have hval : (digitsToNat ['1'] : ℚ) * pow10 5 = 100000 := by
    rw [hd]
    norm_num [pow10]
  calc normalizeCellFull "1e5"
      = PdValue.num ((digitsToNat ['1'] : ℚ) * pow10 5) := rfl
    _ = PdValue.num 100000 := by rw [hval]

/-- C4 (amended): a cell the pandas parser cannot parse as a number — or
one reading as the missing marker `nan`, the string form of a null —
normalizes to `0` with no error (e.g. `""` and `"N/A"`), and normalization
is a total function, so no missing or unparseable marker survives; but not
every normalized field is a finite number: an infinity cell parses and is
kept non-finite by the `fillna(0)` policy. -/
theorem claim_C4_amended (s : String)
    (h : parseNumericFull (stripCell s) = none) :
    normalizeCellFull s = PdValue.num 0 ∧
    normalizeCellFull "" = PdValue.num 0 ∧
    normalizeCellFull "N/A" = PdValue.num 0 ∧
    normalizeCellFull "nan" = PdValue.num 0 ∧
    (normalizeCellFull "inf").isFinite = false := by
  refine ⟨?_, by decide, by decide, by decide, by decide⟩
  rw [normalizeCellFull, h]
  rfl

/-- C4 witness: concrete unparseable cells normalize to zero while the
infinity cell stays non-finite. -/
theorem claim_C4_amended_witness :
    normalizeCellFull "N/A" = PdValue.num 0 ∧
    normalizeCellFull "" = PdValue.num 0 ∧
    normalizeCellFull "N/A" = PdValue.num 0 ∧
    normalizeCellFull "nan" = PdValue.num 0 ∧
    (normalizeCellFull "inf").isFinite = false :=
  claim_C4_amended "N/A" (by decide)

/-- C5: summing each volume column of the per-category group table over all
its groups equals summing that column directly over the grouped table: the
group-by partitions the rows. -/
theorem claim_C5 (t : List Row) :
    ((bu_group t).map CatTotal.m3).sum = sumBy Row.m3Position t ∧
    ((bu_group t).map CatTotal.bbl).sum = sumBy Row.bblPosition t ∧
    ((bu_group t).map CatTotal.lbs).sum = sumBy Row.lbsPosition t := by
  have hcov : ∀ r ∈ t, r.intBU ∈ dedup (t.map Row.intBU) := fun r hr =>
    (mem_dedup _ _).mpr (List.mem_map_of_mem Row.intBU hr)
  refine ⟨?_, ?_, ?_⟩ <;>
  · rw [bu_group, List.map_map]
    exact sum_partition _ (dedup (t.map Row.intBU)) t (dedup_nodup _) hcov

/-- C6: the net-direction insight is a two-branch pure function of the
overall `M3-Position` sum of the filtered rows: the label is
`"net injection"` exactly when the sum is non-negative (ties at zero
included) and `"net withdrawal"` exactly when it is negative. -/
theorem claim_C6 (t : List Row) :
    (netDirection t = "net injection" ↔ 0 ≤ sumBy Row.m3Position t) ∧
    (netDirection t = "net withdrawal" ↔ sumBy Row.m3Position t < 0) := by
  by_cases h : sumBy Row.m3Position t < 0
  · constructor
    · rw [netDirection, if_pos h]
      constructor
      · intro he
        exact absurd he (by decide)
      · intro hle
        exact absurd h (not_lt.mpr hle)
    · rw [netDirection, if_pos h]
      exact ⟨fun _ => h, fun _ => rfl⟩
  · constructor
    · rw [netDirection, if_neg h]
      exact ⟨fun _ => not_lt.mp h, fun _ => rfl⟩
    · rw [netDirection, if_neg h]
      constructor
      · intro he
        exact absurd he (by decide)
      · intro hlt
        exact absurd hlt h

/-- C7: the category pseudonym map of a loaded table is injective on the
distinct observed category values, assigns the value at 0-based position
`k` of the first-seen distinct list the label `BU-(k+1)` (so the sequence
starts at `BU-1`), and rewriting the table sends every row's category
through this single map (each occurrence of a value gets the same
pseudonym). -/
theorem claim_C7 (t : List Row) :
    (∀ a ∈ t.map Row.intBU, ∀ b ∈ t.map Row.intBU,
      bu_mapping (dedup (t.map Row.intBU)) a = bu_mapping (dedup (t.map Row.intBU)) b →
        a = b) ∧
    (∀ (k : Nat) (v : String), (dedup (t.map Row.intBU))[k]? = some v →
      bu_mapping (dedup (t.map Row.intBU)) v = some ("BU-" ++ natDecimal (k + 1))) ∧
    (∀ (i : Nat) (r0 : Row), t[i]? = some r0 →
      ∃ lab, bu_mapping (dedup (t.map Row.intBU)) r0.intBU = some lab ∧
        (pseudonymize t)[i]? = some { r0 with intBU := lab }) := by
  refine ⟨?_, ?_, ?_⟩
  · intro a ha b hb h
    obtain ⟨i, hfi, hii, hgi⟩ := idxOf?_of_mem a _ ((mem_dedup _ _).mpr ha)
    obtain ⟨j, hfj, hij, hgj⟩ := idxOf?_of_mem b _ ((mem_dedup _ _).mpr hb)
    rw [bu_mapping, hfi, bu_mapping, hfj] at h
    simp only [Option.map_some'] at h
    have hije : i = j := pseudoLabel_injective i j (Option.some.inj h)
    subst hije
    rw [← hgi, ← hgj]
  · intro k v hkv
    have hk : k < (dedup (t.map Row.intBU)).length := by
      by_contra hk2
      rw [List.getElem?_eq_none (le_of_not_lt hk2)] at hkv
      exact Option.noConfusion hkv
    have h2 : (dedup (t.map Row.intBU))[k]? = some ((dedup (t.map Row.intBU))[k]) :=
      List.getElem?_eq_getElem hk
    rw [hkv] at h2
    have hget : (dedup (t.map Row.intBU)).get ⟨k, hk⟩ = v := (Option.some.inj h2).symm
    rw [← hget, bu_mapping, idxOf?_get_nodup _ (dedup_nodup _) k hk]
    rfl
  · intro i r0 hi0
    have hi : i < t.length := by
      by_contra hi2
      rw [List.getElem?_eq_none (le_of_not_lt hi2)] at hi0
      exact Option.noConfusion hi0
    have hmem : r0 ∈ t := by
      have h2 : t[i]? = some (t[i]) := List.getElem?_eq_getElem hi
      rw [hi0] at h2
      have : t[i] = r0 := (Option.some.inj h2).symm
      rw [← this]
      exact List.getElem_mem hi
    obtain ⟨j, hj, hbm⟩ :=
      bu_mapping_mem t r0.intBU (List.mem_map_of_mem Row.intBU hmem)
    refine ⟨pseudoLabel j, hbm, ?_⟩
    rw [pseudonymize, List.getElem?_map, hi0]
    simp only [Option.map_some']
    rw [hbm]
    rfl

/-- C7 witness: on a concrete table with distinct categories `"Acme"` (seen
first) and `"Globex"`, the map is single-valued, position 0 gets `BU-1`,
position 1 gets `BU-2`, and the first row is rewritten through the map. -/
theorem claim_C7_witness :
    "Acme" = "Acme" ∧
    bu_mapping (dedup (exTable7.map Row.intBU)) "Acme" =
      some ("BU-" ++ natDecimal 1) ∧
    bu_mapping (dedup (exTable7.map Row.intBU)) "Globex" =
      some ("BU-" ++ natDecimal 2) ∧
    (∃ lab, bu_mapping (dedup (exTable7.map Row.intBU))
        (mkRow "Acme" (some 0) 1).intBU = some lab ∧
      (pseudonymize exTable7)[0]? = some { mkRow "Acme" (some 0) 1 with intBU := lab }) := by
  have h := claim_C7 exTable7
  exact ⟨h.1 "Acme" (by decide) "Acme" (by decide) rfl,
    h.2.1 0 "Acme" (by simp [exTable7, mkRow, dedup]),
    h.2.1 1 "Globex" (by simp [exTable7, mkRow, dedup]),
    h.2.2 0 (mkRow "Acme" (some 0) 1) (by decide)⟩

/-- C8: pseudonymization is idempotent — re-applying the pseudonymization
step to an already-pseudonymized table returns the table unchanged, so the
assignment effectively happens once per load. -/
theorem claim_C8 (t : List Row) :
    pseudonymize (pseudonymize t) = pseudonymize t :=
  pseudonymize_idem t

/-- C9: the factor means over any filtered table are the arithmetic means
(sum over row count) of the three conversion-factor fields, and on an empty
filtered table they are the absent marker (`none`, modelling pandas NaN),
not a division by zero and not a silent zero. -/
theorem claim_C9 (sel : Selection) (t : List Row) :
    factor_data (filterTable sel t) =
      if (filterTable sel t).isEmpty then (none, none, none)
      else
        (some (((filterTable sel t).map Row.bblProductFactor).sum /
            ((filterTable sel t).length : ℚ)),
          some (((filterTable sel t).map Row.usgProductFactor).sum /
            ((filterTable sel t).length : ℚ)),
          some (((filterTable sel t).map Row.lbsProductFactor).sum /
            ((filterTable sel t).length : ℚ))) := by
  by_cases h : (filterTable sel t).isEmpty
  · simp [factor_data, meanBy, h]
  · simp [factor_data, meanBy, h]

/-- C10: on an empty filtered table the net-direction computation still
produces a label, namely `"net injection"`: the empty sum is `0`, which
falls in the non-negative branch. -/
theorem claim_C10 (sel : Selection) (t : List Row)
    (h : filterTable sel t = []) :
    sumBy Row.m3Position (filterTable sel t) = 0 ∧
    netDirection (filterTable sel t) = "net injection" := by
  rw [h]
  exact ⟨rfl, by decide⟩

/-- C10 witness: a concrete selection that filters out every row yields the
zero sum and the injection label. -/
theorem claim_C10_witness :
    sumBy Row.m3Position (filterTable emptySel exTable) = 0 ∧
    netDirection (filterTable emptySel exTable) = "net injection" :=
  claim_C10 emptySel exTable (by decide)

end Dashboard
